import Mathlib

/-!
# Black-Scholes-Merton pricing: a verification development

Shallow embedding of the pricing code in `Notebooks/BlackScholesMerton.ipynb`:
the closed-form Black-Scholes-Merton call pricer `blackScholesCall`, the payoff
functions `callPayoff` / `putPayoff`, and the binomial lattice pricer
`binomialPricer`.  Machine floats are modelled by real numbers; the external
numerical primitives `scipy.stats.norm.cdf` and `scipy.stats.binom.pmf` are
modelled by their defining mathematical formulas (`normCdf`, `binomPmf`).
Run-models (`blackScholesCallRun`, `binomialPricerRun`) capture which inputs
make the Python code raise an exception and which return a value.
-/

open MeasureTheory

namespace BSM

/-- The unnormalised standard normal density kernel `exp (-t² / 2)`. -/
noncomputable def stdGauss (t : ℝ) : ℝ := Real.exp (-t ^ 2 / 2)

/-- The standard normal cumulative distribution function: mathematical model of
the external primitive `scipy.stats.norm.cdf` (a trusted library collaborator,
not reimplemented by the source). -/
noncomputable def normCdf (x : ℝ) : ℝ :=
  (∫ t in Set.Iic x, stdGauss t) / Real.sqrt (2 * Real.pi)

/-- `blackScholesCall(spot, strike, vol, rate, expiry, div)` from the notebook:
`d1 = (log(spot/strike) + (rate - div + 0.5*vol*vol)*expiry)/(vol*sqrt(expiry))`,
`d2 = d1 - vol*sqrt(expiry)`, and the returned value is
`spot*exp(-div*expiry)*norm.cdf(d1) - strike*exp(-rate*expiry)*norm.cdf(d2)`. -/
noncomputable def blackScholesCall (spot strike vol rate expiry div : ℝ) : ℝ :=
  let d1 := (Real.log (spot / strike) + (rate - div + 0.5 * vol * vol) * expiry) /
    (vol * Real.sqrt expiry)
  let d2 := d1 - vol * Real.sqrt expiry
  spot * Real.exp (-div * expiry) * normCdf d1 -
    strike * Real.exp (-rate * expiry) * normCdf d2

/-- Execution model of `blackScholesCall`.  The only operation in its body that
can raise a Python exception is the plain float division `spot / strike`, which
raises `ZeroDivisionError` when `strike == 0`; every later operation is numpy
`float64` arithmetic (`np.log`, `np.sqrt`, `/`, `norm.cdf`), which yields
`inf`/`nan` with a warning instead of raising.  The function performs no
domain validation of its own. -/
noncomputable def blackScholesCallRun (spot strike vol rate expiry div : ℝ) : Option ℝ :=
  if strike = 0 then none else some (blackScholesCall spot strike vol rate expiry div)

/-- `callPayoff(spot, strike) = np.maximum(spot - strike, 0.0)` from the notebook. -/
noncomputable def callPayoff (spot strike : ℝ) : ℝ := max (spot - strike) 0

/-- `putPayoff(spot, strike) = np.maximum(strike - spot, 0.0)` from the notebook. -/
noncomputable def putPayoff (spot strike : ℝ) : ℝ := max (strike - spot) 0

/-- The up factor `u = np.exp((r - q) * h + v * np.sqrt(h))` of `binomialPricer`. -/
noncomputable def latticeU (r q v h : ℝ) : ℝ :=
  Real.exp ((r - q) * h + v * Real.sqrt h)

/-- The down factor `d = np.exp((r - q) * h - v * np.sqrt(h))` of `binomialPricer`. -/
noncomputable def latticeD (r q v h : ℝ) : ℝ :=
  Real.exp ((r - q) * h - v * Real.sqrt h)

/-- The risk-neutral probability `pstar = (np.exp((r - q) * h) - d) / (u - d)`
of `binomialPricer`. -/
noncomputable def latticePstar (r q v h : ℝ) : ℝ :=
  (Real.exp ((r - q) * h) - latticeD r q v h) / (latticeU r q v h - latticeD r q v h)

/-- Mathematical model of the external primitive `scipy.stats.binom.pmf(i, n, p)`:
`C(n, i) * p^i * (1 - p)^(n - i)`. -/
noncomputable def binomPmf (n : ℕ) (p : ℝ) (i : ℕ) : ℝ :=
  (n.choose i : ℝ) * p ^ i * (1 - p) ^ (n - i)

/-- `binomialPricer(S, K, r, v, q, T, n, payoff)` from the notebook, for a
positive step count `n`: `h = T/n`, factors `u`, `d`, probability `pstar` as
above, the loop `for i in range(n + 1)` accumulates `payoff(S*u^i*d^(n-i), K) *
binom.pmf(i, n, pstar)`, and the accumulated sum is finally multiplied by
`np.exp(-r * T)`. -/
noncomputable def binomialPricer (S K r v q T : ℝ) (n : ℕ) (payoff : ℝ → ℝ → ℝ) : ℝ :=
  let h := T / (n : ℝ)
  let u := latticeU r q v h
  let d := latticeD r q v h
  let pstar := latticePstar r q v h
  (∑ i ∈ Finset.range (n + 1), payoff (S * u ^ i * d ^ (n - i)) K * binomPmf n pstar i) *
    Real.exp (-r * T)

/-- Execution model of `binomialPricer` on an arbitrary integer step count `n`.
When `n = 0` the statement `h = T / n` raises `ZeroDivisionError` (plain float
divided by integer zero) before the pricing loop runs.  When `n < 0`,
`range(n + 1)` is empty, so the loop body never executes and the function
returns `0.0 * np.exp(-r * T)`.  Otherwise the pricing loop computes the usual
sum.  No `DomainError`-style validation of `n`, `u == d` or `pstar` exists in
the code. -/
noncomputable def binomialPricerRun (S K r v q T : ℝ) (n : ℤ) (payoff : ℝ → ℝ → ℝ) :
    Option ℝ :=
  if n = 0 then none
  else if n < 0 then some (0 * Real.exp (-r * T))
  else some (binomialPricer S K r v q T n.toNat payoff)

/-- `binomialPricer` together with its `verbose` flag: the second component is
the sequence of `(spotT, po, prob)` tuples printed by the loop when
`verbose = True` (one tuple per `i in range(n + 1)`), and is empty when
`verbose = False`.  The returned price is the first component. -/
noncomputable def binomialPricerVerbose (S K r v q T : ℝ) (n : ℕ) (payoff : ℝ → ℝ → ℝ)
    (verbose : Bool) : ℝ × List (ℝ × ℝ × ℝ) :=
  let h := T / (n : ℝ)
  let u := latticeU r q v h
  let d := latticeD r q v h
  let pstar := latticePstar r q v h
  ((∑ i ∈ Finset.range (n + 1), payoff (S * u ^ i * d ^ (n - i)) K * binomPmf n pstar i) *
      Real.exp (-r * T),
    if verbose then
      (List.range (n + 1)).map fun i =>
        (S * u ^ i * d ^ (n - i), payoff (S * u ^ i * d ^ (n - i)) K, binomPmf n pstar i)
    else [])

/-- The closed-form call price exactly as the specification writes it:
`d1 = (ln(S/K) + (r - δ + 0.5·σ²)·T)/(σ·√T)`, `d2 = d1 - σ·√T`,
price `S·e^(-δT)·Φ(d1) - K·e^(-rT)·Φ(d2)`. -/
noncomputable def bsmCallSpec (S K sigma r T delta : ℝ) : ℝ :=
  let d1 := (Real.log (S / K) + (r - delta + 0.5 * sigma ^ 2) * T) / (sigma * Real.sqrt T)
  let d2 := d1 - sigma * Real.sqrt T
  S * Real.exp (-delta * T) * normCdf d1 - K * Real.exp (-r * T) * normCdf d2

/-- Modelled from the spec: the ClosedFormPricer put price, which is not present
in `src/` (the notebook implements only the call).  Formula from the spec:
`Put price = K·e^(-rT)·Φ(-d2) - S·e^(-δT)·Φ(-d1)` with `d1`, `d2` as in the
call pricer. -/
noncomputable def blackScholesPut (spot strike vol rate expiry div : ℝ) : ℝ :=
  let d1 := (Real.log (spot / strike) + (rate - div + 0.5 * vol * vol) * expiry) /
    (vol * Real.sqrt expiry)
  let d2 := d1 - vol * Real.sqrt expiry
  strike * Real.exp (-rate * expiry) * normCdf (-d2) -
    spot * Real.exp (-div * expiry) * normCdf (-d1)

/-- The binomial lattice price exactly as the specification writes it:
`exp(-rT) · Σ_i pmf(i; n, p*) · payoff(S·u^i·d^(n-i), K)` with `h = T/n`,
`u = exp((r-δ)h + σ√h)`, `d = exp((r-δ)h - σ√h)`,
`p* = (exp((r-δ)h) - d)/(u - d)`. -/
noncomputable def latticePriceSpec (S K sigma r T delta : ℝ) (n : ℕ)
    (payoff : ℝ → ℝ → ℝ) : ℝ :=
  let h := T / (n : ℝ)
  let u := Real.exp ((r - delta) * h + sigma * Real.sqrt h)
  let d := Real.exp ((r - delta) * h - sigma * Real.sqrt h)
  let pstar := (Real.exp ((r - delta) * h) - d) / (u - d)
  Real.exp (-r * T) *
    ∑ i ∈ Finset.range (n + 1), binomPmf n pstar i * payoff (S * u ^ i * d ^ (n - i)) K

/-- C1: for every input with `S>0`, `K>0`, `σ>0`, `T>0`, the closed-form call
pricer returns exactly the BSM value `S·e^(-δT)·Φ(d1) - K·e^(-rT)·Φ(d2)` with
`d1 = (ln(S/K) + (r - δ + 0.5σ²)·T)/(σ·√T)` and `d2 = d1 - σ·√T`, where `Φ` is
the standard normal CDF. -/
theorem blackScholesCall_eq_spec (S K v r T q : ℝ)
    (hS : 0 < S) (hK : 0 < K) (hv : 0 < v) (hT : 0 < T) :
    blackScholesCall S K v r T q = bsmCallSpec S K v r T q := by
  simp only [blackScholesCall, bsmCallSpec]
  have h1 : (Real.log (S / K) + (r - q + 0.5 * v * v) * T) / (v * Real.sqrt T) =
      (Real.log (S / K) + (r - q + 0.5 * v ^ 2) * T) / (v * Real.sqrt T) := by
    ring_nf
  rw [h1]

theorem blackScholesCall_eq_spec_witness :
    blackScholesCall 41 40 0.3 0.08 0.25 0 = bsmCallSpec 41 40 0.3 0.08 0.25 0 :=
  blackScholesCall_eq_spec 41 40 0.3 0.08 0.25 0 (by norm_num) (by norm_num)
    (by norm_num) (by norm_num)

/-- C2: for every input with `S>0`, `K>0`, `σ>0`, `T>0` and integer `n ≥ 1`,
the binomial lattice pricer returns exactly
`exp(-rT) · Σ_{i=0}^{n} pmf(i; n, p*) · payoff(S·u^i·d^(n-i), K)` with
`h = T/n`, `u = exp((r-δ)h + σ√h)`, `d = exp((r-δ)h - σ√h)` and
`p* = (exp((r-δ)h) - d)/(u - d)`. -/
theorem binomialPricer_eq_spec (S K v r T q : ℝ) (n : ℕ) (payoff : ℝ → ℝ → ℝ)
    (hS : 0 < S) (hK : 0 < K) (hv : 0 < v) (hT : 0 < T) (hn : 1 ≤ n) :
    binomialPricer S K r v q T n payoff = latticePriceSpec S K v r T q n payoff := by
  simp only [binomialPricer, latticePriceSpec, latticeU, latticeD, latticePstar]
  rw [mul_comm]
  exact congrArg _ (Finset.sum_congr rfl fun i _ => mul_comm _ _)

theorem binomialPricer_eq_spec_witness :
    binomialPricer 41 40 0.08 0.3 0 0.25 10 callPayoff =
      latticePriceSpec 41 40 0.3 0.08 0.25 0 10 callPayoff :=
  binomialPricer_eq_spec 41 40 0.3 0.08 0.25 0 10 callPayoff (by norm_num) (by norm_num)
    (by norm_num) (by norm_num) (by norm_num)

/-- C3 counterexample: with otherwise-valid parameters and `n = -5`, the
binomial pricer does not fail at all (no `DomainError`): `range(-5 + 1)` is
empty, so it returns the value `0.0 * exp(-r*T)` successfully. -/
theorem binomialPricer_no_domain_check_cex :
    (binomialPricerRun 41 40 0.08 0.3 0 0.25 (-5) callPayoff).isSome = true := by
  norm_num [binomialPricerRun]

/-- C3 (amended): the binomial pricer fails only for `n = 0`, where `h = T/n`
raises `ZeroDivisionError` before the pricing loop; for every other integer
`n` (including negative `n`) it returns a value, and it performs no check of
`u == d` or of `p*` lying in `(0,1)`. -/
theorem binomialPricerRun_none_iff (S K r v q T : ℝ) (n : ℤ) (payoff : ℝ → ℝ → ℝ) :
    binomialPricerRun S K r v q T n payoff = none ↔ n = 0 := by
  unfold binomialPricerRun
  rcases eq_or_ne n 0 with h | h
  · simp [h]
  · rw [if_neg h]
    rcases lt_or_ge n 0 with h2 | h2
    · simp [if_pos h2, h]
    · simp [if_neg (not_lt.mpr h2), h]

/-- C4 counterexample: with `σ = 0` and otherwise-valid parameters the
closed-form pricer raises no error: every operation after the plain float
division `spot/strike` is numpy `float64` arithmetic, which produces
`inf`/`nan` with a warning instead of raising. -/
theorem blackScholesCall_no_domain_check_cex :
    (blackScholesCallRun 41 40 0 0.08 0.25 0).isSome = true := by
  norm_num [blackScholesCallRun]

/-- C4 (amended): the closed-form pricer performs no domain validation.  Its
only failing input is `strike = 0`, where the plain Python float division
`spot / strike` raises `ZeroDivisionError`; for every other input — including
`σ ≤ 0`, `T ≤ 0` and `S ≤ 0` — it returns a value, in particular for all
`S, K, σ, T > 0`. -/
theorem blackScholesCallRun_none_iff (S K v r T q : ℝ) :
    blackScholesCallRun S K v r T q = none ↔ K = 0 := by
  unfold blackScholesCallRun
  rcases eq_or_ne K 0 with h | h
  · simp [h]
  · simp [h]

/-- C6: for all `S_T ≥ 0` and `K ≥ 0`, the call payoff `max(S_T - K, 0)` and
the put payoff `max(K - S_T, 0)` are non-negative and satisfy the payoff
identity `Call(S_T, K) + K = Put(S_T, K) + S_T`. -/
theorem payoff_nonneg_and_identity (S K : ℝ) (hS : 0 ≤ S) (hK : 0 ≤ K) :
    0 ≤ callPayoff S K ∧ 0 ≤ putPayoff S K ∧
      callPayoff S K + K = putPayoff S K + S := by
  refine ⟨le_max_right _ _, le_max_right _ _, ?_⟩
  unfold callPayoff putPayoff
  rcases le_total S K with h | h
  · rw [max_eq_right (by linarith), max_eq_left (by linarith)]
    ring
  · rw [max_eq_left (by linarith), max_eq_right (by linarith)]
    ring

theorem payoff_nonneg_and_identity_witness :
    0 ≤ callPayoff 41 40 ∧ 0 ≤ putPayoff 41 40 ∧
      callPayoff 41 40 + 40 = putPayoff 41 40 + 41 :=
  payoff_nonneg_and_identity 41 40 (by norm_num) (by norm_num)

/-- C7 counterexample: the up factor need not exceed 1.  With `r = 0`, `δ = 2`,
`σ = 1`, `T = 1`, `n = 1` (so `h = T/n = 1`) the pricer's up factor is
`u = exp((0-2)·1 + 1·√1) = exp(-1) < 1`, refuting `u > 1`. -/
theorem lattice_up_factor_cex : latticeU 0 2 1 ((1 : ℝ) / ((1 : ℕ) : ℝ)) < 1 := by
  norm_num [latticeU, Real.sqrt_one, Real.exp_lt_one_iff]

/-- C7 (amended): for every `σ > 0`, `T > 0` and integer `n ≥ 1`, with
`h = T/n` the factors satisfy `0 < d < u` and the tree recombines (an
up-then-down step reaches the same price as a down-then-up step); the chain
`u > 1 > d` holds only under the additional condition `|r - δ|·√h < σ`. -/
theorem lattice_factors_amended (r q v T : ℝ) (n : ℕ)
    (hv : 0 < v) (hT : 0 < T) (hn : 1 ≤ n) :
    0 < latticeD r q v (T / (n : ℝ)) ∧
      latticeD r q v (T / (n : ℝ)) < latticeU r q v (T / (n : ℝ)) ∧
      (∀ P : ℝ, P * latticeU r q v (T / (n : ℝ)) * latticeD r q v (T / (n : ℝ)) =
        P * latticeD r q v (T / (n : ℝ)) * latticeU r q v (T / (n : ℝ))) ∧
      (|r - q| * Real.sqrt (T / (n : ℝ)) < v →
        1 < latticeU r q v (T / (n : ℝ)) ∧ latticeD r q v (T / (n : ℝ)) < 1) := by
  have hnR : (0 : ℝ) < (n : ℝ) := by exact_mod_cast hn
  have hh : 0 < T / (n : ℝ) := div_pos hT hnR
  unfold latticeU latticeD
  set s := Real.sqrt (T / (n : ℝ)) with hsdef
  have hs : 0 < s := Real.sqrt_pos.mpr hh
  have hmul : s * s = T / (n : ℝ) := Real.mul_self_sqrt hh.le
  rw [← hmul]
  refine ⟨Real.exp_pos _, ?_, fun P => by ring, fun habs => ?_⟩
  · apply Real.exp_lt_exp.mpr
    nlinarith [mul_pos hv hs]
  · have h1 : -v < (r - q) * s := by
      have hb := mul_le_mul_of_nonneg_right (neg_abs_le (r - q)) hs.le
      nlinarith [habs]
    have h2 : (r - q) * s < v := by
      have hb := mul_le_mul_of_nonneg_right (le_abs_self (r - q)) hs.le
      nlinarith [habs]
    constructor
    · rw [show (1 : ℝ) = Real.exp 0 from Real.exp_zero.symm]
      apply Real.exp_lt_exp.mpr
      nlinarith [mul_pos hs (show 0 < (r - q) * s + v by linarith)]
    · rw [show (1 : ℝ) = Real.exp 0 from Real.exp_zero.symm]
      apply Real.exp_lt_exp.mpr
      nlinarith [mul_neg_of_pos_of_neg hs (show (r - q) * s - v < 0 by linarith)]

theorem lattice_factors_amended_witness :
    0 < latticeD 0.08 0 0.3 (0.25 / ((10 : ℕ) : ℝ)) ∧
      latticeD 0.08 0 0.3 (0.25 / ((10 : ℕ) : ℝ)) <
        latticeU 0.08 0 0.3 (0.25 / ((10 : ℕ) : ℝ)) ∧
      (∀ P : ℝ, P * latticeU 0.08 0 0.3 (0.25 / ((10 : ℕ) : ℝ)) *
          latticeD 0.08 0 0.3 (0.25 / ((10 : ℕ) : ℝ)) =
        P * latticeD 0.08 0 0.3 (0.25 / ((10 : ℕ) : ℝ)) *
          latticeU 0.08 0 0.3 (0.25 / ((10 : ℕ) : ℝ))) ∧
      (|(0.08 : ℝ) - 0| * Real.sqrt (0.25 / ((10 : ℕ) : ℝ)) < 0.3 →
        1 < latticeU 0.08 0 0.3 (0.25 / ((10 : ℕ) : ℝ)) ∧
          latticeD 0.08 0 0.3 (0.25 / ((10 : ℕ) : ℝ)) < 1) :=
  lattice_factors_amended 0.08 0 0.3 0.25 10 (by norm_num) (by norm_num) (by norm_num)

/-- C8: the price returned by the binomial pricer is identical with
`verbose = True` and `verbose = False`; the diagnostic sequence in verbose mode
is exactly the `n + 1` tuples `(terminal price, payoff, probability mass)`, one
per terminal index `i ∈ [0, n]`, and is empty otherwise. -/
theorem verbose_mode_frame (S K v r T q : ℝ) (n : ℕ) (payoff : ℝ → ℝ → ℝ)
    (hn : 1 ≤ n) :
    (binomialPricerVerbose S K r v q T n payoff true).1 =
        (binomialPricerVerbose S K r v q T n payoff false).1 ∧
      (∀ b : Bool, (binomialPricerVerbose S K r v q T n payoff b).1 =
        binomialPricer S K r v q T n payoff) ∧
      (binomialPricerVerbose S K r v q T n payoff true).2 =
        (List.range (n + 1)).map (fun i =>
          (S * latticeU r q v (T / (n : ℝ)) ^ i * latticeD r q v (T / (n : ℝ)) ^ (n - i),
            payoff (S * latticeU r q v (T / (n : ℝ)) ^ i *
              latticeD r q v (T / (n : ℝ)) ^ (n - i)) K,
            binomPmf n (latticePstar r q v (T / (n : ℝ))) i)) ∧
      (binomialPricerVerbose S K r v q T n payoff false).2 = [] ∧
      (binomialPricerVerbose S K r v q T n payoff true).2.length = n + 1 := by
  refine ⟨rfl, fun b => rfl, rfl, rfl, ?_⟩
  simp [binomialPricerVerbose]

theorem verbose_mode_frame_witness :
    (binomialPricerVerbose 41 40 0.08 0.3 0 0.25 10 callPayoff true).1 =
        (binomialPricerVerbose 41 40 0.08 0.3 0 0.25 10 callPayoff false).1 ∧
      (∀ b : Bool, (binomialPricerVerbose 41 40 0.08 0.3 0 0.25 10 callPayoff b).1 =
        binomialPricer 41 40 0.08 0.3 0 0.25 10 callPayoff) ∧
      (binomialPricerVerbose 41 40 0.08 0.3 0 0.25 10 callPayoff true).2 =
        (List.range (10 + 1)).map (fun i =>
          (41 * latticeU 0.08 0 0.3 (0.25 / ((10 : ℕ) : ℝ)) ^ i *
              latticeD 0.08 0 0.3 (0.25 / ((10 : ℕ) : ℝ)) ^ (10 - i),
            callPayoff (41 * latticeU 0.08 0 0.3 (0.25 / ((10 : ℕ) : ℝ)) ^ i *
              latticeD 0.08 0 0.3 (0.25 / ((10 : ℕ) : ℝ)) ^ (10 - i)) 40,
            binomPmf 10 (latticePstar 0.08 0 0.3 (0.25 / ((10 : ℕ) : ℝ))) i)) ∧
      (binomialPricerVerbose 41 40 0.08 0.3 0 0.25 10 callPayoff false).2 = [] ∧
      (binomialPricerVerbose 41 40 0.08 0.3 0 0.25 10 callPayoff true).2.length = 10 + 1 :=
  verbose_mode_frame 41 40 0.3 0.08 0.25 0 10 callPayoff (by norm_num)

/-- C10: whenever `u ≠ d`, the risk-neutral probability
`p* = (exp((r-δ)h) - d)/(u - d)` computed by the binomial pricer satisfies the
one-step martingale identity `p*·u + (1 - p*)·d = exp((r-δ)h)`. -/
theorem pstar_martingale (r q v h : ℝ) (hne : latticeU r q v h ≠ latticeD r q v h) :
    latticePstar r q v h * latticeU r q v h +
      (1 - latticePstar r q v h) * latticeD r q v h = Real.exp ((r - q) * h) := by
  unfold latticePstar
  field_simp [sub_ne_zero.mpr hne]
  ring

theorem pstar_martingale_witness :
    latticePstar 0 0 1 1 * latticeU 0 0 1 1 +
      (1 - latticePstar 0 0 1 1) * latticeD 0 0 1 1 = Real.exp ((0 - 0) * 1) :=
  pstar_martingale 0 0 1 1 (by
    norm_num [latticeU, latticeD, Real.sqrt_one, Real.exp_eq_exp])

lemma stdGauss_eq (t : ℝ) : stdGauss t = Real.exp (-(1 / 2) * t ^ 2) := by
  unfold stdGauss
  congr 1
  ring

lemma stdGauss_pos (t : ℝ) : 0 < stdGauss t := Real.exp_pos _

lemma stdGauss_neg (t : ℝ) : stdGauss (-t) = stdGauss t := by
  unfold stdGauss
  rw [neg_sq]

lemma integrable_stdGauss : Integrable stdGauss := by
  have h : stdGauss = fun t : ℝ => Real.exp (-(1 / 2) * t ^ 2) := funext stdGauss_eq
  rw [h]
  exact integrable_exp_neg_mul_sq (by norm_num)

lemma integral_stdGauss : (∫ t, stdGauss t) = Real.sqrt (2 * Real.pi) := by
  have h : stdGauss = fun t : ℝ => Real.exp (-(1 / 2) * t ^ 2) := funext stdGauss_eq
  rw [h, integral_gaussian]
  congr 1
  ring

lemma sqrt_two_pi_pos : 0 < Real.sqrt (2 * Real.pi) :=
  Real.sqrt_pos.mpr (by positivity)

lemma normCdf_nonneg (x : ℝ) : 0 ≤ normCdf x :=
  div_nonneg (setIntegral_nonneg measurableSet_Iic fun t _ => (stdGauss_pos t).le)
    (Real.sqrt_nonneg _)

lemma setIntegral_Iic_comp_add (f : ℝ → ℝ) (c a : ℝ) :
    (∫ t in Set.Iic c, f (t + a)) = ∫ t in Set.Iic (c + a), f t := by
  have hemb : MeasurableEmbedding (fun x : ℝ => x + a) :=
    (Homeomorph.addRight a).isClosedEmbedding.measurableEmbedding
  have h := hemb.setIntegral_map (μ := volume) f (Set.Iic (c + a))
  rw [map_add_right_eq_self] at h
  have hset : Set.preimage (fun x : ℝ => x + a) (Set.Iic (c + a)) = Set.Iic c := by
    ext x
    simp
  rw [hset] at h
  exact h.symm

lemma integrable_stdGauss_shift (a : ℝ) : Integrable (fun t : ℝ => stdGauss (t + a)) := by
  have hemb : MeasurableEmbedding (fun x : ℝ => x + a) :=
    (Homeomorph.addRight a).isClosedEmbedding.measurableEmbedding
  have h : Integrable (stdGauss ∘ fun x : ℝ => x + a) := by
    rw [← hemb.integrable_map_iff, map_add_right_eq_self]
    exact integrable_stdGauss
  simpa [Function.comp] using h

lemma normCdf_add_neg (x : ℝ) : normCdf x + normCdf (-x) = 1 := by
  unfold normCdf
  rw [div_add_div_same]
  have hneg : (∫ t in Set.Iic (-x), stdGauss t) = ∫ t in Set.Ioi x, stdGauss t := by
    rw [← integral_comp_neg_Ioi]
    exact setIntegral_congr_fun measurableSet_Ioi fun t _ => stdGauss_neg t
  rw [hneg,
    intervalIntegral.integral_Iic_add_Ioi integrable_stdGauss.integrableOn
      integrable_stdGauss.integrableOn,
    integral_stdGauss, div_self (ne_of_gt sqrt_two_pi_pos)]

lemma normCdf_shift_le (A B a c : ℝ) (hA : 0 < A) (hB : 0 < B) (ha : 0 < a)
    (hlog : Real.log A - Real.log B = a * c + a ^ 2 / 2) :
    B * normCdf c ≤ A * normCdf (c + a) := by
  unfold normCdf
  rw [← setIntegral_Iic_comp_add stdGauss c a]
  have hint1 : IntegrableOn (fun t : ℝ => B * stdGauss t) (Set.Iic c) :=
    (integrable_stdGauss.const_mul B).integrableOn
  have hint2 : IntegrableOn (fun t : ℝ => A * stdGauss (t + a)) (Set.Iic c) :=
    ((integrable_stdGauss_shift a).const_mul A).integrableOn
  have hpt : ∀ t ∈ Set.Iic c, B * stdGauss t ≤ A * stdGauss (t + a) := by
    intro t ht
    rw [Set.mem_Iic] at ht
    have e1 : B * stdGauss t = Real.exp (Real.log B + -t ^ 2 / 2) := by
      rw [Real.exp_add, Real.exp_log hB]
      rfl
    have e2 : A * stdGauss (t + a) = Real.exp (Real.log A + -(t + a) ^ 2 / 2) := by
      rw [Real.exp_add, Real.exp_log hA]
      rfl
    rw [e1, e2]
    apply Real.exp_le_exp.mpr
    nlinarith [mul_nonneg ha.le (sub_nonneg.mpr ht)]
  have key : (∫ t in Set.Iic c, B * stdGauss t) ≤ ∫ t in Set.Iic c, A * stdGauss (t + a) :=
    setIntegral_mono_on hint1 hint2 measurableSet_Iic hpt
  rw [integral_mul_left, integral_mul_left] at key
  calc B * ((∫ t in Set.Iic c, stdGauss t) / Real.sqrt (2 * Real.pi))
      = (B * ∫ t in Set.Iic c, stdGauss t) / Real.sqrt (2 * Real.pi) := by
        rw [mul_div_assoc]
    _ ≤ (A * ∫ t in Set.Iic c, stdGauss (t + a)) / Real.sqrt (2 * Real.pi) :=
        div_le_div_of_nonneg_right key (Real.sqrt_nonneg _)
    _ = A * ((∫ t in Set.Iic c, stdGauss (t + a)) / Real.sqrt (2 * Real.pi)) := by
        rw [mul_div_assoc]

lemma blackScholesCall_nonneg (S K v r T q : ℝ)
    (hS : 0 < S) (hK : 0 < K) (hv : 0 < v) (hT : 0 < T) :
    0 ≤ blackScholesCall S K v r T q := by
  simp only [blackScholesCall]
  set a := v * Real.sqrt T with hadef
  have hsq : 0 < Real.sqrt T := Real.sqrt_pos.mpr hT
  have ha : 0 < a := mul_pos hv hsq
  set d1 := (Real.log (S / K) + (r - q + 0.5 * v * v) * T) / a with hd1def
  have hA : 0 < S * Real.exp (-q * T) := mul_pos hS (Real.exp_pos _)
  have hB : 0 < K * Real.exp (-r * T) := mul_pos hK (Real.exp_pos _)
  have hd1a : d1 * a = Real.log S - Real.log K + (r - q + 0.5 * v * v) * T := by
    rw [hd1def, div_mul_cancel₀ _ (ne_of_gt ha), Real.log_div (ne_of_gt hS) (ne_of_gt hK)]
  have haa : a ^ 2 = v ^ 2 * T := by
    rw [hadef, mul_pow, Real.sq_sqrt hT.le]
  have hlog : Real.log (S * Real.exp (-q * T)) - Real.log (K * Real.exp (-r * T)) =
      a * (d1 - a) + a ^ 2 / 2 := by
    rw [Real.log_mul (ne_of_gt hS) (Real.exp_ne_zero _),
      Real.log_mul (ne_of_gt hK) (Real.exp_ne_zero _), Real.log_exp, Real.log_exp]
    nlinarith [hd1a, haa]
  have key := normCdf_shift_le (S * Real.exp (-q * T)) (K * Real.exp (-r * T)) a (d1 - a)
    hA hB ha hlog
  rw [sub_add_cancel] at key
  linarith [key]

/-- C5: for every valid set of market parameters (`S, K, σ, T > 0`), the
closed-form call and put prices satisfy put-call parity
`Call - Put = S·e^(-δT) - K·e^(-rT)` within the tolerance `1e-9` (in this real
model the identity is exact). -/
theorem put_call_parity (S K v r T q : ℝ)
    (hS : 0 < S) (hK : 0 < K) (hv : 0 < v) (hT : 0 < T) :
    |blackScholesCall S K v r T q - blackScholesPut S K v r T q -
      (S * Real.exp (-q * T) - K * Real.exp (-r * T))| ≤ 1e-9 := by
  have hmain : blackScholesCall S K v r T q - blackScholesPut S K v r T q =
      S * Real.exp (-q * T) - K * Real.exp (-r * T) := by
    simp only [blackScholesCall, blackScholesPut]
    have h1 := normCdf_add_neg
      ((Real.log (S / K) + (r - q + 0.5 * v * v) * T) / (v * Real.sqrt T))
    have h2 := normCdf_add_neg
      ((Real.log (S / K) + (r - q + 0.5 * v * v) * T) / (v * Real.sqrt T) - v * Real.sqrt T)
    linear_combination S * Real.exp (-q * T) * h1 - K * Real.exp (-r * T) * h2
  rw [hmain, sub_self, abs_zero]
  norm_num

theorem put_call_parity_witness :
    |blackScholesCall 41 40 0.3 0.08 0.25 0 - blackScholesPut 41 40 0.3 0.08 0.25 0 -
      (41 * Real.exp (-(0 : ℝ) * 0.25) - 40 * Real.exp (-(0.08 : ℝ) * 0.25))| ≤ 1e-9 :=
  put_call_parity 41 40 0.3 0.08 0.25 0 (by norm_num) (by norm_num) (by norm_num) (by norm_num)

lemma latticePstar_pos_lt_one (r q v h : ℝ) (hv : 0 < v) (hh : 0 < h) :
    0 < latticePstar r q v h ∧ latticePstar r q v h < 1 := by
  have hs : 0 < Real.sqrt h := Real.sqrt_pos.mpr hh
  have hvs : 0 < v * Real.sqrt h := mul_pos hv hs
  have hud : latticeD r q v h < latticeU r q v h := by
    unfold latticeU latticeD
    apply Real.exp_lt_exp.mpr
    linarith
  have hd : latticeD r q v h < Real.exp ((r - q) * h) := by
    unfold latticeD
    apply Real.exp_lt_exp.mpr
    linarith
  have hu : Real.exp ((r - q) * h) < latticeU r q v h := by
    unfold latticeU
    apply Real.exp_lt_exp.mpr
    linarith
  unfold latticePstar
  constructor
  · exact div_pos (by linarith) (by linarith)
  · rw [div_lt_one (by linarith)]
    linarith

/-- C9: for every valid input (`S, K, σ, T > 0`; for the lattice pricer
additionally an integer `n ≥ 1` with `p*` in `(0,1)` and a non-negative payoff
function), the closed-form call price and the binomial lattice price are both
non-negative. -/
theorem prices_nonneg (S K v r T q : ℝ) (n : ℕ) (payoff : ℝ → ℝ → ℝ)
    (hS : 0 < S) (hK : 0 < K) (hv : 0 < v) (hT : 0 < T) (hn : 1 ≤ n)
    (hp0 : 0 < latticePstar r q v (T / (n : ℝ)))
    (hp1 : latticePstar r q v (T / (n : ℝ)) < 1)
    (hpo : ∀ s k, 0 ≤ payoff s k) :
    0 ≤ blackScholesCall S K v r T q ∧ 0 ≤ binomialPricer S K r v q T n payoff := by
  constructor
  · exact blackScholesCall_nonneg S K v r T q hS hK hv hT
  · simp only [binomialPricer]
    apply mul_nonneg _ (Real.exp_nonneg _)
    apply Finset.sum_nonneg
    intro i _
    apply mul_nonneg (hpo _ _)
    unfold binomPmf
    apply mul_nonneg (mul_nonneg (Nat.cast_nonneg _) (pow_nonneg hp0.le _))
    exact pow_nonneg (by linarith) _

theorem prices_nonneg_witness :
    0 ≤ blackScholesCall 41 40 0.3 0.08 0.25 0 ∧
      0 ≤ binomialPricer 41 40 0.08 0.3 0 0.25 10 callPayoff := by
  have hp := latticePstar_pos_lt_one 0.08 0 0.3 (0.25 / ((10 : ℕ) : ℝ))
    (by norm_num) (by norm_num)
  exact prices_nonneg 41 40 0.3 0.08 0.25 0 10 callPayoff (by norm_num) (by norm_num)
    (by norm_num) (by norm_num) (by norm_num) hp.1 hp.2
    (fun s k => le_max_right _ _)

end BSM
